import Mathlib

/-!
# libpluto: the scheduling interface of `include/pluto/pluto.h`

The development has two layers.

* The declarations of the header that carry data (`enum fusionType`,
  `struct plutoOptions`, the prototypes of the scheduling entry points) are
  embedded directly.
* The schedule-construction engine behind `pluto_schedule` is not part of the
  header.  Its constraint library, dependence model, driver and
  tiling-legality pass are modelled from the specification; every such
  definition says so in its doc comment.  The components that produce one
  schedule dimension (constraint generator, solver, fusion heuristic) enter as
  a `Backend`, with the specification's contracts on its answers.
-/

namespace Pluto

/-! ## Fusion options (`enum fusionType`) -/

/-- Fusion options for `options->fuse`, in declaration order. -/
inductive FusionType where
  /-- Do not fuse across SCCs. -/
  | kNoFuse
  /-- Geared towards maximal fusion, but not really maximal fusion. -/
  | kMaximalFuse
  /-- Does not fuse nests with different dimensionality. -/
  | kSmartFuse
  /-- Fuses SCCs only if fusion does not result in loss of parallelism. -/
  | kTypedFuse
  /-- Typed fuse at outer levels, Max fuse at inner levels. -/
  | kHybridFuse
  deriving DecidableEq, Repr

namespace FusionType

/-- The integer value of an enumerator.  The enumeration gives no explicit
values, so the first enumerator is 0 and each next one is one more. -/
def toInt : FusionType → Int
  | kNoFuse => 0
  | kMaximalFuse => 1
  | kSmartFuse => 2
  | kTypedFuse => 3
  | kHybridFuse => 4

/-- Reading an integer back as an enumerator; integers that are the value of
no enumerator have no reading. -/
def ofInt (n : Int) : Option FusionType :=
  if n = 0 then some kNoFuse
  else if n = 1 then some kMaximalFuse
  else if n = 2 then some kSmartFuse
  else if n = 3 then some kTypedFuse
  else if n = 4 then some kHybridFuse
  else none

/-- The enumerators, in declaration order. -/
def all : List FusionType :=
  [kNoFuse, kMaximalFuse, kSmartFuse, kTypedFuse, kHybridFuse]

end FusionType

/-! ## The options record (`struct plutoOptions`) -/

/-- The options record.  `int` members are integers, `bool` members booleans,
the `char *` member a string; members keep their order and names. -/
structure PlutoOptions where
  tile : Int
  intratileopt : Int
  diamondtile : Int
  pet : Int
  dynschedule : Int
  dynschedule_graph : Int
  dynschedule_graph_old : Int
  dyn_trans_deps_tasks : Int
  fulldiamondtile : Int
  parallel : Int
  innerpar : Int
  unroll : Int
  ufactor : Int
  prevector : Int
  rar : Int
  fuse : FusionType
  delayed_cut : Int
  hybridcut : Int
  scancount : Int
  codegen_context : Int
  forceparallel : Int
  multipar : Int
  l2tile : Int
  ft : Int
  lt : Int
  debug : Int
  moredebug : Int
  quiet : Int
  identity : Int
  bee : Int
  cloogf : Int
  cloogl : Int
  cloogsh : Int
  cloogbacktrack : Int
  isldep : Int
  candldep : Int
  isldepaccesswise : Int
  isldepcoalesce : Int
  lastwriter : Int
  nodepbound : Int
  coeff_bound : Int
  scalpriv : Int
  silent : Int
  readscop : Int
  pipsolve : Int
  islsolve : Int
  glpk : Int
  gurobi : Int
  lp : Int
  dfp : Int
  ilp : Int
  lpcolour : Int
  scc_cluster : Int
  iss : Int
  out_file : String
  time : Int
  flic : Int
  disable_neg_coeffs : Bool
  disable_param_coeffs : Bool


/-! ## The configuration surface -/

/-- The members of `struct plutoOptions`, in declaration order. -/
inductive OptionField where
  | tile
  | intratileopt
  | diamondtile
  | pet
  | dynschedule
  | dynschedule_graph
  | dynschedule_graph_old
  | dyn_trans_deps_tasks
  | fulldiamondtile
  | parallel
  | innerpar
  | unroll
  | ufactor
  | prevector
  | rar
  | fuse
  | delayed_cut
  | hybridcut
  | scancount
  | codegen_context
  | forceparallel
  | multipar
  | l2tile
  | ft
  | lt
  | debug
  | moredebug
  | quiet
  | identity
  | bee
  | cloogf
  | cloogl
  | cloogsh
  | cloogbacktrack
  | isldep
  | candldep
  | isldepaccesswise
  | isldepcoalesce
  | lastwriter
  | nodepbound
  | coeff_bound
  | scalpriv
  | silent
  | readscop
  | pipsolve
  | islsolve
  | glpk
  | gurobi
  | lp
  | dfp
  | ilp
  | lpcolour
  | scc_cluster
  | iss
  | out_file
  | time
  | flic
  | disable_neg_coeffs
  | disable_param_coeffs
  deriving DecidableEq, Repr

/-- The items of the configuration surface that the specification lists for the
core. -/
inductive SurfaceItem where
  | fusionPolicy
  | tiling
  | diamondTiling
  | coeffBound
  | negativeCoeffs
  | paramShiftCoeffs
  | rarDependences
  | lastWriter
  | solverBackend
  | budget
  deriving DecidableEq, Repr

/-- The item of the configuration surface that a member sets, read off the
member's comment in the header; `none` for a member that sets none of them.
`time` is commented "Polyhedral compile time stats": it switches a report on,
it is no budget. -/
def settingFor : OptionField → Option SurfaceItem
  | .tile => some .tiling
  | .diamondtile => some .diamondTiling
  | .fulldiamondtile => some .diamondTiling
  | .rar => some .rarDependences
  | .fuse => some .fusionPolicy
  | .lastwriter => some .lastWriter
  | .coeff_bound => some .coeffBound
  | .pipsolve => some .solverBackend
  | .islsolve => some .solverBackend
  | .glpk => some .solverBackend
  | .gurobi => some .solverBackend
  | .lp => some .solverBackend
  | .ilp => some .solverBackend
  | .disable_neg_coeffs => some .negativeCoeffs
  | .disable_param_coeffs => some .paramShiftCoeffs
  | _ => none

/-- The scheduling entry points declared in the header. -/
inductive EntryPoint where
  | pluto_schedule
  | pluto_schedule_osl
  | pluto_schedule_str
  deriving DecidableEq, Repr

/-- The parameters of an entry point, as (type, name), from its prototype. -/
def EntryPoint.params : EntryPoint → List (String × String)
  | .pluto_schedule =>
    [("isl_union_set *", "domains"), ("isl_union_map *", "dependences"),
     ("PlutoOptions *", "options")]
  | .pluto_schedule_osl => [("osl_scop_p", "scop"), ("PlutoOptions *", "options_l")]
  | .pluto_schedule_str =>
    [("const char *", "domains_str"), ("const char *", "dependences_str"),
     ("char **", "schedules_str_buffer_ptr"), ("char **", "p_loops"),
     ("Remapping **", "remapping_ptr"), ("PlutoOptions *", "options")]

/-! ## Exact linear constraints

The header includes `pluto/matrix.h` but the matrix and constraint library
itself is outside it.  The definitions of this section are modelled from the
specification's description of that library: exact integer vectors and systems
of affine inequalities over iterators, parameters and a constant.
-/

/-- Modelled from the spec: a row of exact integers (the polyhedral
matrix/constraint library is not in the header). -/
abbrev Vec := List Int

/-- Inner product.  A column missing on either side counts as zero. -/
def dot : Vec → Vec → Int
  | a :: as, x :: xs => a * x + dot as xs
  | _, _ => 0

/-- Sum of two rows, the shorter one extended by zeros. -/
def vadd : Vec → Vec → Vec
  | [], b => b
  | a :: as, [] => a :: as
  | a :: as, b :: bs => (a + b) :: vadd as bs

/-- A row multiplied by a scalar. -/
def smul (c : Int) (a : Vec) : Vec := a.map (fun v => c * v)

/-- A row cut or zero-extended to exactly `n` columns. -/
def pad : Nat → Vec → Vec
  | 0, _ => []
  | n + 1, [] => 0 :: pad n []
  | n + 1, a :: as => a :: pad n as

/-- Modelled from the spec: one affine inequality `coeffs · x + const ≥ 0` of a
linear constraint system.  An equality is the pair of the two opposite
inequalities (`Constraint.equality`). -/
structure Constraint where
  coeffs : Vec
  const : Int
  deriving DecidableEq, Repr

namespace Constraint

/-- Value of the affine form at a point. -/
def eval (k : Constraint) (x : Vec) : Int := dot k.coeffs x + k.const

/-- The inequality holds at the point. -/
def holds (k : Constraint) (x : Vec) : Bool := decide (0 ≤ k.eval x)

/-- Coefficient of variable `j`. -/
def coeffAt (k : Constraint) (j : Nat) : Int := k.coeffs.getD j 0

/-- The affine form with the opposite sign. -/
def neg (k : Constraint) : Constraint := ⟨smul (-1) k.coeffs, -k.const⟩

/-- An equality `coeffs · x + const = 0`, as two inequalities. -/
def equality (k : Constraint) : List Constraint := [k, k.neg]

/-- A row without variables whose constant is negative: `const ≥ 0` is false. -/
def isContradiction (k : Constraint) : Bool :=
  k.coeffs.all (fun c => decide (c = 0)) && decide (k.const < 0)

end Constraint

/-- Modelled from the spec: an integer polyhedron, the conjunction of its
inequalities. -/
abbrev Polyhedron := List Constraint

/-- The point satisfies every inequality of the system. -/
def Polyhedron.contains (P : Polyhedron) (x : Vec) : Bool :=
  P.all (fun k => k.holds x)

/-! ### The exact infeasibility test of the solver abstraction -/

/-- The non-negative combination of `p` (positive coefficient at `j`) and `q`
(negative coefficient at `j`) in which variable `j` cancels. -/
def combine (j : Nat) (p q : Constraint) : Constraint :=
  ⟨vadd (smul (-(q.coeffAt j)) p.coeffs) (smul (p.coeffAt j) q.coeffs),
   (-(q.coeffAt j)) * p.const + p.coeffAt j * q.const⟩

/-- One elimination step on variable `j`: the rows that do not mention `j`,
and every combination of a lower with an upper bound on `j`. -/
def eliminate (j : Nat) (P : Polyhedron) : Polyhedron :=
  P.filter (fun k => decide (k.coeffAt j = 0)) ++
    (P.filter (fun k => decide (0 < k.coeffAt j))).flatMap (fun p =>
      (P.filter (fun k => decide (k.coeffAt j < 0))).map (fun q => combine j p q))

/-- Elimination of the variables `n - 1, ..., 0` in turn. -/
def eliminateAll : Nat → Polyhedron → Polyhedron
  | 0, P => P
  | n + 1, P => eliminateAll n (eliminate n P)

/-- Modelled from the spec: the infeasibility answer of the solver abstraction
(`solve(constraints) → (feasible, ...)`) for its exact backend; the solver
back ends are not in the header.  The answer `true` is given when eliminating
the `n` variables of the system leaves a false constant row. -/
def infeasible (n : Nat) (P : Polyhedron) : Bool :=
  (eliminateAll n P).any Constraint.isContradiction

/-! ## Data model of the schedule-construction engine

The header declares `pluto_schedule` over `isl_union_set` / `isl_union_map`
handles only; statements, dependences and schedules are modelled from the
specification's data model.
-/

/-- Modelled from the spec: the type tag of a dependence (the dependence model
is not in the header). -/
inductive DepType where
  | flow
  | anti
  | output
  | input
  deriving DecidableEq, Repr

/-- Modelled from the spec: a statement, with its identifier, the
dimensionality of its iteration domain and the domain polyhedron over its
iterators followed by the global parameters.  Its schedule matrix is kept in
the `Schedule` under the statement's identifier. -/
structure Stmt where
  id : Nat
  dim : Nat
  domain : Polyhedron
  deriving Repr

/-- Modelled from the spec: a dependence from statement `src` to statement
`tgt` (statement identifiers), with its dependence polyhedron over the source
iterators, then the target iterators, then the global parameters. -/
structure Dep where
  src : Nat
  tgt : Nat
  kind : DepType
  poly : Polyhedron
  deriving DecidableEq, Repr

/-- Modelled from the spec: the `domains` argument of `pluto_schedule`, the
statements in identifier order and the number of global parameters. -/
structure Domains where
  stmts : List Stmt
  nparams : Nat
  deriving Repr

/-- Dimensionality of the statement with identifier `i`. -/
def Domains.dimOf (dom : Domains) (i : Nat) : Nat :=
  match dom.stmts.get? i with
  | some s => s.dim
  | none => 0

/-- Modelled from the spec: the schedule, one matrix per statement in
identifier order; a matrix is the list of its rows, a row has the columns
iterators, global parameters, constant. -/
abbrev Schedule := List (List Vec)

/-- The schedule matrix of statement `i`. -/
def matrixOf (S : Schedule) (i : Nat) : List Vec := S.getD i []

/-- Value of one schedule row at the instance with iterator values `x`, under
parameter values `p`. -/
def rowValue (h x p : Vec) : Int := dot h (x ++ p ++ [1])

/-- The pair (source instance `s`, target instance `t`) under parameter values
`p` is in the dependence polyhedron of `d`. -/
def Dep.relates (dom : Domains) (d : Dep) (s t p : Vec) : Bool :=
  decide (s.length = dom.dimOf d.src) && decide (t.length = dom.dimOf d.tgt) &&
    decide (p.length = dom.nparams) && d.poly.contains (s ++ t ++ p)

/-- The affine form, over the variables of a dependence polyhedron, of the
target row `ht` at the target instance minus the source row `hs` at the source
instance. -/
def distanceForm (ds dt np : Nat) (hs ht : Vec) : Constraint :=
  ⟨smul (-1) (pad ds hs) ++ (pad dt ht ++
      vadd (pad np (ht.drop dt)) (smul (-1) (pad np (hs.drop ds)))),
   (ht.drop (dt + np)).headD 0 - (hs.drop (ds + np)).headD 0⟩

/-- The distance form of dependence `d` under the rows `hs` of its source and
`ht` of its target statement. -/
def Dep.distance (dom : Domains) (d : Dep) (hs ht : Vec) : Constraint :=
  distanceForm (dom.dimOf d.src) (dom.dimOf d.tgt) dom.nparams hs ht

/-- Number of variables of the dependence polyhedron of `d`. -/
def Dep.nvars (dom : Domains) (d : Dep) : Nat :=
  dom.dimOf d.src + dom.dimOf d.tgt + dom.nparams

/-- Modelled from the spec: the rows strictly order the source before the
target for all instance pairs: no pair of the polyhedron has distance `≤ 0`. -/
def Dep.strictlyOrdered (dom : Domains) (d : Dep) (hs ht : Vec) : Bool :=
  infeasible (d.nvars dom) ((d.distance dom hs ht).neg :: d.poly)

/-- Column `j` of a system of `m` unknowns, with coefficient `c`. -/
def unitRow : Nat → Nat → Int → Vec
  | 0, _, _ => []
  | m + 1, 0, c => c :: List.replicate m 0
  | m + 1, j + 1, c => 0 :: unitRow m j c

/-- Modelled from the spec: the box constraint injected by the legality
constraint generator for one statement's unknown coefficient vector of `m`
columns: every coefficient is at most `coeff_bound`, and at least
`-coeff_bound`, or at least `0` when `disable_neg_coeffs` is set. -/
def boxConstraints (o : PlutoOptions) (m : Nat) : Polyhedron :=
  (List.range m).flatMap (fun j =>
    [⟨unitRow m j (-1), o.coeff_bound⟩,
     ⟨unitRow m j 1, if o.disable_neg_coeffs then 0 else o.coeff_bound⟩])

/-- Modelled from the spec: the collaborators of the driver that produce one
schedule dimension per round (legality constraint generator, solver
abstraction and fusion heuristic; none is in the header).  `hyperplane` gets
the options, the domains, the dependences still unsatisfied and the schedule
built so far, and answers with one coefficient vector per statement, or with
nothing when no cluster structure is feasible.
`diamondSkew` proposes the skewing matrix of a band for diamond tiling. -/
structure Backend where
  hyperplane : PlutoOptions → Domains → List Dep → Schedule → Option (List Vec)
  diamondSkew : PlutoOptions → Domains → List Dep → Schedule → Nat → Nat → List Vec

/-- Row of statement `i` in the answer of one round. -/
def rowOf (rows : List Vec) (i : Nat) : Vec := rows.getD i []

/-- The sum of the rows of a system, each multiplied by its multiplier. -/
def combination : List Int → Polyhedron → Constraint
  | l :: ls, k :: ks =>
    ⟨vadd (smul l k.coeffs) (combination ls ks).coeffs, l * k.const + (combination ls ks).const⟩
  | _, _ => ⟨[], 0⟩

/-- Modelled from the spec: the legality constraint of the constraint generator
for dependence `d` on the unknown rows `hs` (source) and `ht` (target), in its
form over multipliers: the distance form is the constant `lam0` plus the
combination of the facets of the dependence polyhedron with the multipliers
`lam`, all of them non-negative.  Rational multipliers are written over the
common denominator `scale`. -/
def Dep.farkas (dom : Domains) (d : Dep) (hs ht : Vec) (scale lam0 : Int) (lam : List Int) :
    Bool :=
  decide (0 < scale) && decide (0 ≤ lam0) && lam.all (fun l => decide (0 ≤ l)) &&
    decide (pad (d.nvars dom) (smul scale (d.distance dom hs ht).coeffs)
      = pad (d.nvars dom) (combination lam d.poly).coeffs) &&
    decide (scale * (d.distance dom hs ht).const = lam0 + (combination lam d.poly).const)

/-- Modelled from the spec: malformed input (empty or inconsistent
domain/dependence data) is rejected before scheduling begins: there is a
statement, identifiers are the positions, every dependence joins two
statements of the input. -/
def wellFormed (dom : Domains) (deps : List Dep) : Bool :=
  !dom.stmts.isEmpty &&
    decide (dom.stmts.map (fun s => s.id) = List.range dom.stmts.length) &&
    deps.all (fun d => decide (d.src < dom.stmts.length) && decide (d.tgt < dom.stmts.length))

/-- One row added to every statement's schedule matrix. -/
def appendRows : Schedule → List Vec → Schedule
  | [], _ => []
  | M :: Ms, [] => (M ++ [[]]) :: appendRows Ms []
  | M :: Ms, h :: hs => (M ++ [h]) :: appendRows Ms hs

/-- The dependence is satisfied by the rows of one round. -/
def Dep.satisfiedBy (dom : Domains) (rows : List Vec) (d : Dep) : Bool :=
  d.strictlyOrdered dom (rowOf rows d.src) (rowOf rows d.tgt)

/-- Modelled from the spec: the driver state machine.  In state
`Active(remaining unsatisfied dependences)` a round produces one schedule
dimension and retires the dependences it satisfies; no remaining dependence is
`AllSatisfied` (success); an exhausted iteration cap, or a round without a
feasible hyperplane, is `Stuck` (failure). -/
def drive (b : Backend) (o : PlutoOptions) (dom : Domains) :
    Nat → Schedule → List Dep → Option Schedule
  | _, S, [] => some S
  | 0, _, _ :: _ => none
  | cap + 1, S, d :: ds =>
    match b.hyperplane o dom (d :: ds) S with
    | none => none
    | some rows =>
      drive b o dom cap (appendRows S rows)
        ((d :: ds).filter (fun e => !(e.satisfiedBy dom rows)))

/-- Modelled from the spec: `pluto_schedule(domains, dependences, options)`;
only its declaration is in the header.  The result is the complete schedule or
nothing (the C function returns the schedule handle).  Which dependence kinds
are materialized (read-after-read, last writer) is settled before scheduling,
so every dependence handed in is scheduled alike; `cap` is the iteration cap
of the driver. -/
def pluto_schedule (b : Backend) (cap : Nat) (domains : Domains) (dependences : List Dep)
    (options : PlutoOptions) : Option Schedule :=
  if wellFormed domains dependences then
    drive b options domains cap (domains.stmts.map (fun _ => [])) dependences
  else none

/-- Number of schedule dimensions of a schedule (rows of the first statement's
matrix; all matrices of a returned schedule have this many rows). -/
def dims (S : Schedule) : Nat := (matrixOf S 0).length

/-- Modelled from the spec: dependence `d` is satisfied at dimension `k` of the
schedule: row `k` orders the source before the target for all instance pairs
of the dependence polyhedron. -/
def Dep.satisfiedAt (dom : Domains) (S : Schedule) (d : Dep) (k : Nat) : Prop :=
  ∀ s t p : Vec, d.relates dom s t p = true →
    rowValue ((matrixOf S d.src).getD k []) s p < rowValue ((matrixOf S d.tgt).getD k []) t p

/-- Modelled from the spec: a complete schedule for the input: a schedule
matrix for every statement, all with the same number of rows, and every
dependence satisfied at some dimension. -/
def Complete (dom : Domains) (deps : List Dep) (S : Schedule) : Prop :=
  S.length = dom.stmts.length ∧ (∀ M ∈ S, M.length = dims S) ∧
    ∀ d ∈ deps, ∃ k, k < dims S ∧ d.satisfiedAt dom S k

/-- Modelled from the spec: reading of the serialized domains and dependences
and writing of the serialized schedule (the textual form is outside the
header). -/
structure Codec where
  readDomains : String → Option Domains
  readDependences : String → Option (List Dep)
  writeSchedule : Schedule → String

/-- Modelled from the spec: `pluto_schedule_str`, the companion entry that
takes the domains and dependences in serialized form and gives the serialized
schedule; only its declaration is in the header.  The result is what is stored
through `schedules_str_buffer_ptr`; the loop and remapping outputs are not
modelled. -/
def pluto_schedule_str (c : Codec) (b : Backend) (cap : Nat) (domains_str : String)
    (dependences_str : String) (options : PlutoOptions) : Option String :=
  match c.readDomains domains_str, c.readDependences dependences_str with
  | some dom, some deps => (pluto_schedule b cap dom deps options).map c.writeSchedule
  | _, _ => none

/-- Modelled from the spec: access to a scop: its domains, its dependences, and
the scop with a schedule stored in it (`osl/scop.h` is outside the header). -/
structure ScopAccess (Scop : Type) where
  domains : Scop → Domains
  dependences : Scop → List Dep
  withSchedule : Scop → Schedule → Scop

/-- Modelled from the spec: `pluto_schedule_osl`, scheduling of a scop in place;
only its declaration is in the header.  The result is the status (`0` for
success) and the scop afterwards, which is the input scop when scheduling
fails. -/
def pluto_schedule_osl {Scop : Type} (a : ScopAccess Scop) (b : Backend) (cap : Nat)
    (scop : Scop) (options_l : PlutoOptions) : Int × Scop :=
  match pluto_schedule b cap (a.domains scop) (a.dependences scop) options_l with
  | some S => (0, a.withSchedule scop S)
  | none => (1, scop)

/-! ## The tiling-legality pass -/

/-- The candidate hyperplane of `checkedBackend`: for every statement the row
that selects its first column. -/
def firstColumnRows (dom : Domains) : List Vec :=
  dom.stmts.map (fun s => unitRow (s.dim + dom.nparams + 1) 0 1)

/-- The multiplier vectors of length `m` with entries 0 and 1. -/
def multiplierCandidates : Nat → List (List Int)
  | 0 => [[]]
  | m + 1 => (multiplierCandidates m).flatMap (fun l => [0 :: l, 1 :: l])

/-- The legality constraint of `d` has a solution among the multipliers 0
and 1. -/
def certified (dom : Domains) (d : Dep) (hs ht : Vec) : Bool :=
  (multiplierCandidates d.poly.length).any (fun lam =>
    d.farkas dom hs ht 1 0 lam || d.farkas dom hs ht 1 1 lam)

/-- A backend that proposes `firstColumnRows` and answers with it only when the
legality constraint of every unsatisfied dependence is solved by multipliers 0
and 1 and the proposal lies in the coefficient box of every statement; it
proposes the identity as diamond skew. -/
def checkedBackend : Backend where
  hyperplane := fun o dom unsat _ =>
    if unsat.all (fun d =>
          certified dom d (rowOf (firstColumnRows dom) d.src) (rowOf (firstColumnRows dom) d.tgt))
        && (List.range dom.stmts.length).all (fun i =>
          decide ((rowOf (firstColumnRows dom) i).length ≤ dom.dimOf i + dom.nparams + 1) &&
          (boxConstraints o (dom.dimOf i + dom.nparams + 1)).contains (rowOf (firstColumnRows dom) i))
    then some (firstColumnRows dom) else none
  diamondSkew := fun _ _ _ _ _ w => (List.range w).map (fun j => unitRow w j 1)

/-- Two statements of depth one over `0 ≤ i ≤ N - 1`, with one parameter `N`. -/
def exDomains : Domains :=
  ⟨[⟨0, 1, [⟨[1, 0], 0⟩, ⟨[-1, 1], -1⟩]⟩, ⟨1, 1, [⟨[1, 0], 0⟩, ⟨[-1, 1], -1⟩]⟩], 1⟩

/-- Flow dependence from instance `i` of statement 0 to instance `i + 1` of
statement 1 (variables `i`, `i'`, `N`): `i' = i + 1`, `0 ≤ i`, `i' ≤ N - 1`. -/
def exDep : Dep :=
  ⟨0, 1, DepType.flow, [⟨[-1, 1, 0], -1⟩, ⟨[1, -1, 0], 1⟩, ⟨[1, 0, 0], 0⟩, ⟨[0, -1, 1], -1⟩]⟩

/-- Options with tiling on, smart fuse and coefficient bound 4. -/
def exOptions : PlutoOptions where
  tile := 1
  intratileopt := 1
  diamondtile := 1
  pet := 0
  dynschedule := 0
  dynschedule_graph := 0
  dynschedule_graph_old := 0
  dyn_trans_deps_tasks := 0
  fulldiamondtile := 0
  parallel := 0
  innerpar := 0
  unroll := 0
  ufactor := 8
  prevector := 1
  rar := 0
  fuse := FusionType.kSmartFuse
  delayed_cut := 0
  hybridcut := 0
  scancount := 0
  codegen_context := -1
  forceparallel := 0
  multipar := 0
  l2tile := 0
  ft := -1
  lt := -1
  debug := 0
  moredebug := 0
  quiet := 0
  identity := 0
  bee := 0
  cloogf := -1
  cloogl := -1
  cloogsh := 0
  cloogbacktrack := 1
  isldep := 1
  candldep := 0
  isldepaccesswise := 1
  isldepcoalesce := 1
  lastwriter := 0
  nodepbound := 0
  coeff_bound := 4
  scalpriv := 0
  silent := 0
  readscop := 0
  pipsolve := 0
  islsolve := 1
  glpk := 0
  gurobi := 0
  lp := 0
  dfp := 0
  ilp := 0
  lpcolour := 0
  scc_cluster := 0
  iss := 0
  out_file := ""
  time := 1
  flic := 0
  disable_neg_coeffs := true
  disable_param_coeffs := false

/-- The schedule found for the example: the first iterator, for both
statements. -/
def exSchedule : Schedule := [[[1, 0, 0]], [[1, 0, 0]]]

/-! # Theorems -/

/-! ## Linear forms -/

theorem dot_nil_left (x : Vec) : dot [] x = 0 := by
  cases x <;> rfl

theorem dot_nil_right (a : Vec) : dot a [] = 0 := by
  cases a <;> rfl

theorem dot_vadd (a b x : Vec) : dot (vadd a b) x = dot a x + dot b x := by
  induction a generalizing b x with
  | nil => simp [vadd, dot_nil_left]
  | cons a as ih =>
    cases b with
    | nil => simp [vadd, dot_nil_left]
    | cons b bs =>
      cases x with
      | nil => simp [vadd, dot]
      | cons x xs => simp only [vadd, dot, ih]; ring

theorem dot_smul (c : Int) (a x : Vec) : dot (smul c a) x = c * dot a x := by
  induction a generalizing x with
  | nil => simp [smul, dot_nil_left]
  | cons a as ih =>
    cases x with
    | nil => simp [smul, dot]
    | cons x xs =>
      have h := ih xs
      simp only [smul, List.map_cons, dot] at h ⊢
      rw [h]; ring

theorem dot_zero_row (a x : Vec) (h : a.all (fun c => decide (c = 0)) = true) :
    dot a x = 0 := by
  induction a generalizing x with
  | nil => exact dot_nil_left x
  | cons a as ih =>
    cases x with
    | nil => rfl
    | cons x xs =>
      simp only [List.all_cons, Bool.and_eq_true, decide_eq_true_eq] at h
      simp [dot, h.1, ih xs h.2]

/-! ## Soundness of the infeasibility test -/

theorem combine_eval (j : Nat) (p q : Constraint) (x : Vec) :
    (combine j p q).eval x = (-(q.coeffAt j)) * p.eval x + p.coeffAt j * q.eval x := by
  simp only [combine, Constraint.eval, dot_vadd, dot_smul]; ring

theorem contains_iff (P : Polyhedron) (x : Vec) :
    P.contains x = true ↔ ∀ k ∈ P, 0 ≤ k.eval x := by
  simp [Polyhedron.contains, Constraint.holds]

theorem eliminate_sound (j : Nat) (P : Polyhedron) (x : Vec)
    (h : P.contains x = true) : (eliminate j P).contains x = true := by
  rw [contains_iff] at h ⊢
  intro k hk
  simp only [eliminate, List.mem_append, List.mem_filter, List.mem_flatMap, List.mem_map,
    decide_eq_true_eq] at hk
  rcases hk with ⟨hk, _⟩ | ⟨p, ⟨hp, hpos⟩, q, ⟨hq, hneg⟩, rfl⟩
  · exact h k hk
  · rw [combine_eval]
    have h1 := h p hp
    have h2 := h q hq
    have h3 : 0 ≤ -(q.coeffAt j) := by omega
    have h4 : 0 ≤ p.coeffAt j := by omega
    exact add_nonneg (mul_nonneg h3 h1) (mul_nonneg h4 h2)

theorem eliminateAll_sound (n : Nat) (P : Polyhedron) (x : Vec)
    (h : P.contains x = true) : (eliminateAll n P).contains x = true := by
  induction n generalizing P with
  | zero => exact h
  | succ n ih => exact ih _ (eliminate_sound n P x h)

theorem infeasible_sound (n : Nat) (P : Polyhedron) (x : Vec)
    (h : infeasible n P = true) : P.contains x = false := by
  by_contra hc
  have hx : P.contains x = true := by simpa using hc
  have hall := (contains_iff _ x).1 (eliminateAll_sound n P x hx)
  simp only [infeasible, List.any_eq_true, Constraint.isContradiction, Bool.and_eq_true,
    decide_eq_true_eq] at h
  obtain ⟨k, hk, hz, hneg⟩ := h
  have := hall k hk
  simp only [Constraint.eval, dot_zero_row _ x hz] at this
  omega

/-! ## The distance form of a dependence -/

theorem length_pad (n : Nat) (v : Vec) : (pad n v).length = n := by
  induction n generalizing v with
  | zero => rfl
  | succ n ih => cases v <;> simp [pad, ih]

theorem dot_append (a b x y : Vec) (h : a.length = x.length) :
    dot (a ++ b) (x ++ y) = dot a x + dot b y := by
  induction a generalizing x with
  | nil =>
    cases x with
    | nil => simp [dot_nil_left]
    | cons x xs => simp at h
  | cons a as ih =>
    cases x with
    | nil => simp at h
    | cons x xs =>
      simp only [List.length_cons, Nat.add_right_cancel_iff] at h
      show a * x + dot (as ++ b) (xs ++ y) = a * x + dot as xs + dot b y
      rw [ih xs h]; ring

theorem dot_pad (n : Nat) (v x : Vec) (h : x.length ≤ n) : dot (pad n v) x = dot v x := by
  induction n generalizing v x with
  | zero =>
    have : x = [] := List.length_eq_zero.mp (Nat.le_zero.mp h)
    subst this
    simp [dot_nil_right]
  | succ n ih =>
    cases x with
    | nil => simp [dot_nil_right]
    | cons x xs =>
      have hx : xs.length ≤ n := by simpa using h
      cases v with
      | nil => simp [pad, dot, ih [] xs hx, dot_nil_left]
      | cons a as => simp [pad, dot, ih as xs hx]

theorem dot_params_const (h p : Vec) :
    dot h (p ++ [1]) = dot (pad p.length h) p + (h.drop p.length).headD 0 := by
  induction p generalizing h with
  | nil => cases h <;> simp [dot, pad, dot_nil_left, dot_nil_right]
  | cons x xs ih =>
    cases h with
    | nil => simp [pad, dot, dot_pad, dot_nil_left]
    | cons a as =>
      show a * x + dot as (xs ++ [1])
        = a * x + dot (pad xs.length as) xs + (as.drop xs.length).headD 0
      rw [ih as]; ring

theorem rowValue_split (h x p : Vec) :
    rowValue h x p = dot (pad x.length h) x + dot (pad p.length (h.drop x.length)) p
      + (h.drop (x.length + p.length)).headD 0 := by
  induction x generalizing h with
  | nil => simp [rowValue, pad, dot_nil_left, dot_params_const]
  | cons x xs ih =>
    cases h with
    | nil =>
      have := ih []
      simp only [rowValue, List.drop_nil, List.append_assoc] at this
      simp [rowValue, pad, dot, dot_pad, dot_nil_left]
    | cons a as =>
      have := ih as
      simp only [rowValue, List.append_assoc] at this
      have e : (as.drop (xs.length + p.length)) = ((a :: as).drop ((x :: xs).length + p.length)) := by
        simp [Nat.add_right_comm xs.length 1 p.length]
      rw [← e]
      show a * x + dot as (xs ++ p ++ [1])
        = a * x + dot (pad xs.length as) xs + dot (pad p.length (as.drop xs.length)) p
          + (as.drop (xs.length + p.length)).headD 0
      rw [List.append_assoc, this]; ring

theorem distanceForm_eval (hs ht s t p : Vec) :
    (distanceForm s.length t.length p.length hs ht).eval (s ++ (t ++ p))
      = rowValue ht t p - rowValue hs s p := by
  simp only [Constraint.eval, distanceForm]
  rw [dot_append _ _ _ _ (by simp [smul, length_pad]),
    dot_append _ _ _ _ (by simp [length_pad]), dot_vadd, dot_smul, dot_smul,
    rowValue_split ht t p, rowValue_split hs s p]
  ring

theorem distance_eval (dom : Domains) (d : Dep) (hs ht s t p : Vec)
    (h : d.relates dom s t p = true) :
    (d.distance dom hs ht).eval (s ++ t ++ p) = rowValue ht t p - rowValue hs s p := by
  simp only [Dep.relates, Bool.and_eq_true, decide_eq_true_eq] at h
  obtain ⟨⟨⟨h1, h2⟩, h3⟩, _⟩ := h
  rw [Dep.distance, ← h1, ← h2, ← h3, List.append_assoc]
  exact distanceForm_eval hs ht s t p

/-! ## Soundness of the ordering tests -/

theorem neg_eval (k : Constraint) (x : Vec) : k.neg.eval x = -(k.eval x) := by
  simp only [Constraint.neg, Constraint.eval, dot_smul]; ring

theorem relates_contains (dom : Domains) (d : Dep) (s t p : Vec)
    (h : d.relates dom s t p = true) : d.poly.contains (s ++ t ++ p) = true := by
  simp only [Dep.relates, Bool.and_eq_true] at h
  exact h.2

theorem strictlyOrdered_sound (dom : Domains) (d : Dep) (hs ht s t p : Vec)
    (ho : d.strictlyOrdered dom hs ht = true) (h : d.relates dom s t p = true) :
    rowValue hs s p < rowValue ht t p := by
  have hc := infeasible_sound _ _ (s ++ t ++ p) ho
  have hp := relates_contains dom d s t p h
  have he := distance_eval dom d hs ht s t p h
  simp only [Polyhedron.contains, List.all_cons, Bool.and_eq_false_iff] at hc
  rcases hc with hc | hc
  · simp only [Constraint.holds, decide_eq_false_iff_not, neg_eval, he] at hc
    omega
  · simp only [Polyhedron.contains] at hp
    rw [hp] at hc; cases hc

theorem length_appendRows (S : Schedule) (rows : List Vec) :
    (appendRows S rows).length = S.length := by
  induction S generalizing rows with
  | nil => rfl
  | cons M Ms ih => cases rows <;> simp [appendRows, ih]

theorem matrixOf_appendRows (S : Schedule) (rows : List Vec) (i : Nat) (h : i < S.length) :
    matrixOf (appendRows S rows) i = matrixOf S i ++ [rowOf rows i] := by
  induction S generalizing rows i with
  | nil => simp at h
  | cons M Ms ih =>
    cases i with
    | zero => cases rows <;> simp [appendRows, matrixOf, rowOf]
    | succ i =>
      have hi : i < Ms.length := by simpa using h
      cases rows with
      | nil =>
        have := ih [] i hi
        simp only [matrixOf, rowOf, List.getD_nil] at this
        simp only [appendRows, matrixOf, rowOf, List.getD_cons_succ, List.getD_nil]
        exact this
      | cons r rs =>
        have := ih rs i hi
        simp only [matrixOf, rowOf] at this
        simp only [appendRows, matrixOf, rowOf, List.getD_cons_succ]
        exact this

theorem rows_appendRows (S : Schedule) (rows : List Vec) (r : Nat)
    (h : ∀ M ∈ S, M.length = r) : ∀ M ∈ appendRows S rows, M.length = r + 1 := by
  induction S generalizing rows with
  | nil => simp [appendRows]
  | cons M Ms ih =>
    have h1 : M.length = r := h M (by simp)
    have h2 : ∀ N ∈ Ms, N.length = r := fun N hN => h N (by simp [hN])
    cases rows with
    | nil =>
      intro N hN
      simp only [appendRows, List.mem_cons] at hN
      rcases hN with rfl | hN
      · simp [h1]
      · exact ih [] h2 N hN
    | cons x xs =>
      intro N hN
      simp only [appendRows, List.mem_cons] at hN
      rcases hN with rfl | hN
      · simp [h1]
      · exact ih xs h2 N hN

theorem length_matrixOf (S : Schedule) (r i : Nat) (h : ∀ M ∈ S, M.length = r)
    (hi : i < S.length) : (matrixOf S i).length = r := by
  have : matrixOf S i = S[i] := by simp [matrixOf, List.getD_eq_getElem?_getD, hi]
  rw [this]
  exact h _ (List.getElem_mem hi)

/-! ## Lexicographic order under added dimensions -/

theorem drive_nil (b : Backend) (o : PlutoOptions) (dom : Domains) (cap : Nat) (S : Schedule) :
    drive b o dom cap S [] = some S := by
  cases cap <;> rfl

theorem getD_of_prefix (l1 l2 : List Vec) (k : Nat) (h : l1 <+: l2) (hk : k < l1.length) :
    l2.getD k [] = l1.getD k [] := by
  obtain ⟨t, rfl⟩ := h
  exact List.getD_append _ _ _ _ hk

theorem getD_snoc_length (l : List Vec) (h : Vec) : (l ++ [h]).getD l.length [] = h := by
  simp [List.getD_eq_getElem?_getD]

theorem drive_complete (b : Backend) (o : PlutoOptions) (dom : Domains)
    (cap : Nat) (S : Schedule) (unsat : List Dep) (S' : Schedule) (r : Nat)
    (hrun : drive b o dom cap S unsat = some S') (hr : ∀ M ∈ S, M.length = r) :
    ∃ r', r ≤ r' ∧ (∀ M ∈ S', M.length = r') ∧ S'.length = S.length ∧
      (∀ i, i < S.length → matrixOf S i <+: matrixOf S' i) ∧
      ∀ d ∈ unsat, d.src < S.length → d.tgt < S.length →
        ∃ k, r ≤ k ∧ k < r' ∧ d.satisfiedAt dom S' k := by
  induction cap generalizing S unsat r with
  | zero =>
    cases unsat with
    | nil =>
      simp only [drive, Option.some.injEq] at hrun; subst hrun
      exact ⟨r, le_refl r, hr, rfl, fun i _ => List.prefix_refl _, by simp⟩
    | cons e es => simp [drive] at hrun
  | succ cap ih =>
    cases unsat with
    | nil =>
      simp only [drive, Option.some.injEq] at hrun; subst hrun
      exact ⟨r, le_refl r, hr, rfl, fun i _ => List.prefix_refl _, by simp⟩
    | cons e es =>
      simp only [drive] at hrun
      cases hh : b.hyperplane o dom (e :: es) S with
      | none => rw [hh] at hrun; simp at hrun
      | some rows =>
      rw [hh] at hrun
      simp only at hrun
      obtain ⟨r', hle, hrows, hlen, hpre, hsat⟩ :=
        ih _ _ (r + 1) hrun (rows_appendRows S _ r hr)
      rw [length_appendRows] at hlen hpre hsat
      have hstep : ∀ i, i < S.length → matrixOf S i ++ [rowOf rows i]
          <+: matrixOf S' i := by
        intro i hi
        have := hpre i hi
        rwa [matrixOf_appendRows S _ i hi] at this
      refine ⟨r', by omega, hrows, hlen, ?_, ?_⟩
      · intro i hi
        exact List.IsPrefix.trans (List.prefix_append _ _) (hstep i hi)
      · intro d hd hs ht
        by_cases hsd : d.satisfiedBy dom rows = true
        · refine ⟨r, le_refl r, by omega, ?_⟩
          intro s t p hrel
          have e1 := getD_of_prefix _ _ r (hstep d.src hs)
            (by simp [length_matrixOf S r _ hr hs])
          have e2 := getD_of_prefix _ _ r (hstep d.tgt ht)
            (by simp [length_matrixOf S r _ hr ht])
          have l1 := length_matrixOf S r _ hr hs
          have l2 := length_matrixOf S r _ hr ht
          have g1 := getD_snoc_length (matrixOf S d.src) (rowOf rows d.src)
          have g2 := getD_snoc_length (matrixOf S d.tgt) (rowOf rows d.tgt)
          rw [l1] at g1
          rw [l2] at g2
          rw [e1, e2, g1, g2]
          exact strictlyOrdered_sound dom d _ _ s t p hsd hrel
        · have hmem : d ∈ (e :: es).filter
              (fun e' => !(e'.satisfiedBy dom rows)) :=
            List.mem_filter.2 ⟨hd, by simpa using hsd⟩
          obtain ⟨k, hk1, hk2, hk3⟩ := hsat d hmem hs ht
          exact ⟨k, by omega, hk2, hk3⟩

/-! ## The coefficient box -/

theorem wellFormed_bounds (dom : Domains) (deps : List Dep) (h : wellFormed dom deps = true)
    (d : Dep) (hd : d ∈ deps) : d.src < dom.stmts.length ∧ d.tgt < dom.stmts.length := by
  simp only [wellFormed, Bool.and_eq_true, List.all_eq_true, decide_eq_true_eq] at h
  exact h.2 d hd

theorem pluto_schedule_shape (b : Backend) (cap : Nat) (dom : Domains) (deps : List Dep)
    (o : PlutoOptions) (S : Schedule) (h : pluto_schedule b cap dom deps o = some S) :
    ∃ r, (∀ M ∈ S, M.length = r) ∧ S.length = dom.stmts.length ∧ 0 < dom.stmts.length ∧
      ∀ d ∈ deps, ∃ k, k < r ∧ d.satisfiedAt dom S k := by
  unfold pluto_schedule at h
  split at h
  · rename_i hwf
    obtain ⟨r, _, hrows, hlen, _, hsat⟩ :=
      drive_complete b o dom cap _ deps S 0 h (by
        intro M hM
        simp only [List.mem_map] at hM
        obtain ⟨_, _, rfl⟩ := hM
        rfl)
    simp only [List.length_map] at hlen hsat
    have hne : 0 < dom.stmts.length := by
      simp only [wellFormed, Bool.and_eq_true, Bool.not_eq_true', List.isEmpty_eq_false] at hwf
      exact List.length_pos.2 hwf.1.1
    refine ⟨r, hrows, hlen, hne, ?_⟩
    intro d hd
    obtain ⟨hs, ht⟩ := wellFormed_bounds dom deps hwf d hd
    obtain ⟨k, _, hk, hok⟩ := hsat d hd hs ht
    exact ⟨k, hk, hok⟩
  · cases h

theorem dims_eq (S : Schedule) (r : Nat) (hrows : ∀ M ∈ S, M.length = r) (h0 : 0 < S.length) :
    dims S = r := by
  rw [dims, length_matrixOf S r 0 hrows h0]

/-- C2. Completeness of `pluto_schedule`: whenever a schedule with `dims S`
schedule dimensions is returned, every dependence of the input is satisfied at
some dimension `k` below `dims S`: row `k` orders the source before the target
for all instance pairs of the dependence polyhedron. -/
theorem pluto_schedule_complete (b : Backend) (cap : Nat) (domains : Domains)
    (dependences : List Dep) (options : PlutoOptions) (S : Schedule)
    (h : pluto_schedule b cap domains dependences options = some S)
    (d : Dep) (hd : d ∈ dependences) :
    ∃ k, k < dims S ∧ d.satisfiedAt domains S k := by
  obtain ⟨r, hrows, hlen, hne, hsat⟩ :=
    pluto_schedule_shape b cap domains dependences options S h
  obtain ⟨k, hk, hok⟩ := hsat d hd
  refine ⟨k, ?_, hok⟩
  rw [dims_eq S r hrows (by omega)]
  exact hk

theorem pluto_schedule_complete_witness :
    pluto_schedule checkedBackend 4 exDomains [exDep] exOptions = some exSchedule ∧
    ∃ k, k < dims exSchedule ∧ exDep.satisfiedAt exDomains exSchedule k :=
  ⟨by decide,
    pluto_schedule_complete checkedBackend 4 exDomains [exDep] exOptions exSchedule
      (by decide) exDep (by simp)⟩

theorem pluto_schedule_result (b : Backend) (cap : Nat) (dom : Domains) (deps : List Dep)
    (o : PlutoOptions) (S : Schedule) (h : pluto_schedule b cap dom deps o = some S) :
    Complete dom deps S := by
  obtain ⟨r, hrows, hlen, hne, hsat⟩ := pluto_schedule_shape b cap dom deps o S h
  have hd : dims S = r := dims_eq S r hrows (by omega)
  refine ⟨hlen, ?_, ?_⟩
  · intro M hM
    rw [hd]; exact hrows M hM
  · intro d hdep
    rw [hd]; exact hsat d hdep

/-- C3. All-or-nothing result: each scheduling entry point (`pluto_schedule`,
`pluto_schedule_str`, `pluto_schedule_osl`) either fails and yields no schedule
(nothing, no schedule string, the scop unchanged with a failure status), or
yields a complete schedule: a matrix for every statement of the input, all
dependences satisfied. -/
theorem all_or_nothing (b : Backend) (cap : Nat) (options : PlutoOptions) :
    (∀ (dom : Domains) (deps : List Dep),
      pluto_schedule b cap dom deps options = none ∨
      ∃ S, pluto_schedule b cap dom deps options = some S ∧ Complete dom deps S) ∧
    (∀ (c : Codec) (domains_str dependences_str : String),
      pluto_schedule_str c b cap domains_str dependences_str options = none ∨
      ∃ dom deps S, c.readDomains domains_str = some dom ∧
        c.readDependences dependences_str = some deps ∧ Complete dom deps S ∧
        pluto_schedule_str c b cap domains_str dependences_str options
          = some (c.writeSchedule S)) ∧
    (∀ (Scop : Type) (a : ScopAccess Scop) (scop : Scop),
      pluto_schedule_osl a b cap scop options = (1, scop) ∨
      ∃ S, Complete (a.domains scop) (a.dependences scop) S ∧
        pluto_schedule_osl a b cap scop options = (0, a.withSchedule scop S)) := by
  refine ⟨?_, ?_, ?_⟩
  · intro dom deps
    cases h : pluto_schedule b cap dom deps options with
    | none => exact Or.inl rfl
    | some S => exact Or.inr ⟨S, rfl, pluto_schedule_result b cap dom deps options S h⟩
  · intro c ds dd
    unfold pluto_schedule_str
    cases h1 : c.readDomains ds with
    | none => exact Or.inl rfl
    | some dom =>
      cases h2 : c.readDependences dd with
      | none => exact Or.inl rfl
      | some deps =>
        cases h : pluto_schedule b cap dom deps options with
        | none => left; simp [h]
        | some S =>
          right
          exact ⟨dom, deps, S, rfl, rfl, pluto_schedule_result b cap dom deps options S h,
            by simp [h]⟩
  · intro Scop a scop
    unfold pluto_schedule_osl
    cases h : pluto_schedule b cap (a.domains scop) (a.dependences scop) options with
    | none => exact Or.inl rfl
    | some S => exact Or.inr ⟨S, pluto_schedule_result b cap _ _ options S h, rfl⟩

/-! ## The tiling-legality pass -/

/-- C7. Fusion-policy value set: `FusionType` has exactly the five values
`kNoFuse`, `kMaximalFuse`, `kSmartFuse`, `kTypedFuse`, `kHybridFuse`, pairwise
distinct, encoded in declaration order as 0, 1, 2, 3, 4; every options record
carries one of them in `fuse`; the encoding is injective, decoding undoes it,
every code in 0..4 decodes to the value with that code, and no other integer
decodes. -/
theorem fusionType_values :
    FusionType.all.length = 5 ∧ FusionType.all.Nodup ∧
    (∀ f : FusionType, f ∈ FusionType.all) ∧
    (∀ o : PlutoOptions, o.fuse ∈ FusionType.all) ∧
    FusionType.all.map FusionType.toInt = [0, 1, 2, 3, 4] ∧
    Function.Injective FusionType.toInt ∧
    (∀ f : FusionType, FusionType.ofInt f.toInt = some f) ∧
    (∀ n : Fin 5, (FusionType.ofInt (n.val : Int)).map FusionType.toInt = some (n.val : Int)) ∧
    (∀ n : Int, (FusionType.ofInt n).isSome = decide (0 ≤ n ∧ n ≤ 4)) := by
  have hall : ∀ f : FusionType, f ∈ FusionType.all := by
    intro f; cases f <;> simp [FusionType.all]
  have hdec : ∀ f : FusionType, FusionType.ofInt f.toInt = some f := by
    intro f; cases f <;> rfl
  refine ⟨rfl, by decide, hall, fun o => hall o.fuse, rfl, ?_, hdec, ?_, ?_⟩
  · intro f g hfg
    have := congrArg FusionType.ofInt hfg
    rw [hdec, hdec] at this
    exact Option.some.inj this
  · intro n
    fin_cases n <;> rfl
  · intro n
    unfold FusionType.ofInt
    split_ifs <;> simp <;> omega

/-- C10, as the claim states it, fails: not every item of the configuration
surface has a member of `struct plutoOptions` that sets it (none is a budget). -/
theorem surface_not_covered :
    ¬ (∀ item : SurfaceItem, ∃ f : OptionField, settingFor f = some item) := by
  intro h
  obtain ⟨f, hf⟩ := h SurfaceItem.budget
  cases f <;> simp [settingFor] at hf

/-- C10, amended.  Every scheduling entry point takes the options record, and
an item of the configuration surface has a member of `struct plutoOptions` that
sets it exactly when the item is not the iteration/time budget: fusion policy,
tiling, diamond tiling, coefficient bound, negative coefficients,
parametric-shift coefficients, read-after-read dependences, last-writer
reduction and solver backend are covered; `time` sets none of them. -/
theorem surface_covered_but_budget :
    (∀ e : EntryPoint, ∃ name, ("PlutoOptions *", name) ∈ e.params) ∧
    (∀ item : SurfaceItem,
      (∃ f : OptionField, settingFor f = some item) ↔ item ≠ SurfaceItem.budget) ∧
    settingFor OptionField.time = none := by
  refine ⟨?_, ?_, rfl⟩
  · intro e
    cases e
    · exact ⟨"options", by simp [EntryPoint.params]⟩
    · exact ⟨"options_l", by simp [EntryPoint.params]⟩
    · exact ⟨"options", by simp [EntryPoint.params]⟩
  · intro item
    constructor
    · rintro ⟨f, hf⟩ rfl
      cases f <;> simp [settingFor] at hf
    · intro hne
      cases item
      · exact ⟨OptionField.fuse, rfl⟩
      · exact ⟨OptionField.tile, rfl⟩
      · exact ⟨OptionField.diamondtile, rfl⟩
      · exact ⟨OptionField.coeff_bound, rfl⟩
      · exact ⟨OptionField.disable_neg_coeffs, rfl⟩
      · exact ⟨OptionField.disable_param_coeffs, rfl⟩
      · exact ⟨OptionField.rar, rfl⟩
      · exact ⟨OptionField.lastwriter, rfl⟩
      · exact ⟨OptionField.islsolve, rfl⟩
      · exact absurd rfl hne

end Pluto
